import Mathlib

/-!
Verification development for the horse-npc repository.

Shallow embedding of the conversation store (`src/db.rs`), the message model
(`src/schema/model.rs`), the target reply pipeline (`src/chatbot.rs`) and the
handler variant with its mention codec (`src/main.rs`), with theorems settling
the frozen claims about the natural-language specification.
-/

namespace Db

/-- `Role` from `src/db.rs` (three variants; the compact persisted form is a `u8`). -/
inductive Role
  | system
  | user
  | assistant
deriving DecidableEq, Repr

/-- `impl From<Role> for u8` in `src/db.rs`. -/
def Role.toU8 : Role → Nat
  | .system => 0
  | .user => 1
  | .assistant => 2

/-- `impl TryFrom<u8> for Role` in `src/db.rs` (invalid byte is an error). -/
def Role.tryFromU8 (n : Nat) : Except String Role :=
  if n = 0 then .ok .system
  else if n = 1 then .ok .user
  else if n = 2 then .ok .assistant
  else .error ("Invalid role: " ++ toString n)

/-- A raw row as yielded by `HISTORY_SQL` in `src/db.rs`
(`SELECT id, role, content FROM history WHERE conversation = ?1`):
the `role` column is the raw stored byte, not yet decoded. -/
structure HRow where
  id : Int
  role : Nat
  content : String
deriving DecidableEq, Repr

/-- `Message` from `src/db.rs` (the `conversation` field is fixed by the query
and omitted; it plays no part in the claims). -/
structure Message where
  id : Int
  role : Role
  content : String
deriving DecidableEq, Repr

/-- Row decoding in `Schema::history` (`src/db.rs`): the stored role byte is
decoded with `Role::try_from`; a bad byte fails the whole query. -/
def rowDecode (r : HRow) : Except String Message :=
  (Role.tryFromU8 r.role).map (fun role => ⟨r.id, role, r.content⟩)

/-- Insertion step of the ascending-by-id sort. A stable sort: an element is
placed before the first existing element with an id `≥` its own, which matches
the observable behaviour of Rust's stable `sort_by(|a, b| a.id.cmp(&b.id))`. -/
def insertById (m : Message) : List Message → List Message
  | [] => [m]
  | x :: xs => if m.id ≤ x.id then m :: x :: xs else x :: insertById m xs

/-- The ascending-by-id sort performed at the end of `Schema::history`
(`messages.sort_by(|a, b| a.id.cmp(&b.id))` in `src/db.rs`). -/
def sortById : List Message → List Message
  | [] => []
  | m :: ms => insertById m (sortById ms)

/-- `Schema::history` from `src/db.rs`, as a function of the rows the query
yields for the requested conversation (in whatever order the database delivers
them): decode each row's role, collect, then sort ascending by id. -/
def history (rows : List HRow) : Except String (List Message) := do
  let msgs ← rows.mapM rowDecode
  .ok (sortById msgs)

/-- The `conversation` table: rows of `(id, name)`.
`id` is the SQLite rowid (`INTEGER PRIMARY KEY`). -/
structure ConvTable where
  rows : List (Nat × String)
deriving DecidableEq, Repr

/-- The rowid SQLite assigns to a fresh insert: one more than the largest
existing rowid (so always positive). -/
def ConvTable.nextId (t : ConvTable) : Nat :=
  (t.rows.foldr (fun p acc => max p.1 acc) 0) + 1

/-- `INSERT INTO conversation (name) VALUES (?1) ON CONFLICT (name) DO NOTHING`
(`src/db.rs`): inserts a fresh row unless the name is already present
(the `name` column is UNIQUE). -/
def ConvTable.insertDoNothing (t : ConvTable) (name : String) : ConvTable :=
  if t.rows.any (fun p => p.2 == name) then t
  else ⟨t.rows ++ [(t.nextId, name)]⟩

/-- `SELECT id FROM conversation WHERE name = ?1` (`src/db.rs`). -/
def ConvTable.selectId (t : ConvTable) (name : String) : Option Nat :=
  (t.rows.find? (fun p => p.2 == name)).map (fun p => p.1)

/-- `Schema::find_conversation` from `src/db.rs`: conflict-safe upsert on the
name, then look the id up; `QueryReturnedNoRows` if the select finds nothing,
and a "Failed to insert conversation" error if the returned rowid is not
positive. Returns the id together with the updated table state. -/
def find_conversation (t : ConvTable) (name : String) :
    Except String Nat × ConvTable :=
  match (t.insertDoNothing name).selectId name with
  | none => (.error "QueryReturnedNoRows", t.insertDoNothing name)
  | some id =>
    if 0 < id then (.ok id, t.insertDoNothing name)
    else
      (.error ("Failed to insert conversation: " ++ name), t.insertDoNothing name)

/-- Well-formedness of the conversation table, as guaranteed by SQLite:
rowids are pairwise distinct and positive, and names are pairwise distinct
(UNIQUE constraint). -/
def ConvTable.WF (t : ConvTable) : Prop :=
  (t.rows.map Prod.fst).Nodup ∧ (t.rows.map Prod.snd).Nodup ∧
    ∀ p ∈ t.rows, 0 < p.1

instance (t : ConvTable) : Decidable t.WF := by
  unfold ConvTable.WF; infer_instance

end Db

namespace Model

/-- `Role` from `src/schema/model.rs`: the closed four-value enumeration. -/
inductive Role
  | system
  | user
  | assistant
  | function
deriving DecidableEq, Repr

/-- `async_openai::types::Role` — the Completion Service's own role
vocabulary (which distinguishes `function` results). -/
inductive OpenAIRole
  | system
  | user
  | assistant
  | function
deriving DecidableEq, Repr

/-- `impl From<Role> for async_openai::types::Role` in `src/schema/model.rs`. -/
def Role.toOpenAI : Role → OpenAIRole
  | .system => .system
  | .user => .user
  | .assistant => .assistant
  | .function => .function

/-- `impl From<async_openai::types::Role> for Role` in `src/schema/model.rs`. -/
def OpenAIRole.toRole : OpenAIRole → Role
  | .system => .system
  | .user => .user
  | .assistant => .assistant
  | .function => .function

/-- Modelled from the spec: the Conversation Store's compact persisted
representation of the four-value `Role`. The `Database` implementation that
persists `schema/model.rs` messages is not among the sources (only the
three-value `db.rs` variant with its `u8` encoding is); spec §3/§6 require a
total mapping, unambiguous in both directions, extending the `db.rs` encoding
(System = 0, User = 1, Assistant = 2) with the `function` case. -/
def Role.toU8 : Role → Nat
  | .system => 0
  | .user => 1
  | .assistant => 2
  | .function => 3

/-- Modelled from the spec: decoding of the compact persisted representation
of the four-value `Role` (see `Role.toU8`); an unknown byte is a decode
failure, never silently coerced. -/
def Role.fromU8 (n : Nat) : Option Role :=
  if n = 0 then some .system
  else if n = 1 then some .user
  else if n = 2 then some .assistant
  else if n = 3 then some .function
  else none

/-- `Message` from `src/schema/model.rs`: a tagged variant — either literal
content or a structured function invocation. -/
inductive Message
  | Content (role : Role) (content : String)
  | Function (role : Role) (fn_name : String) (fn_args : String)
deriving DecidableEq, Repr

/-- `Message::new` from `src/schema/model.rs`. -/
def Message.new (role : Role) (content : String) : Message :=
  .Content role content

/-- `Message::role` from `src/schema/model.rs`. -/
def Message.role : Message → Role
  | .Content role _ => role
  | .Function role _ _ => role

/-- `Message::content` from `src/schema/model.rs`: the plain-text rendering
(a function invocation renders as `name(args)`). -/
def Message.content : Message → String
  | .Content _ content => content
  | .Function _ fn_name fn_args => fn_name ++ "(" ++ fn_args ++ ")"

/-- `async_openai::types::ChatCompletionResponseMessage`: role plus an
optional literal content and an optional function call `(name, arguments)`. -/
structure RespMessage where
  role : OpenAIRole
  content : Option String
  function_call : Option (String × String)
deriving DecidableEq, Repr

/-- Outcome of a conversion that can panic: Rust's `unreachable!` aborts the
thread instead of returning, so it is modelled as a distinct outcome, not an
`Except` error. -/
inductive ConvOutcome
  | ok (m : Message)
  | panic (msg : String)
deriving DecidableEq, Repr

/-- `impl TryFrom<ChatCompletionResponseMessage> for Message` in
`src/schema/model.rs`: `(Some content, None)` and `(None, Some call)` convert;
every other shape hits `unreachable!("Invalid response from OpenAI")`. -/
def messageTryFrom (response : RespMessage) : ConvOutcome :=
  match response.content, response.function_call with
  | some s, none => .ok (.Content response.role.toRole s)
  | none, some f => .ok (.Function response.role.toRole f.1 f.2)
  | _, _ => .panic "internal error: entered unreachable code: Invalid response from OpenAI"

end Model

namespace Chatbot

/-- `random_moderation_response` from `src/chatbot.rs` / `src/main.rs`:
picks one line of `moderation_responses.txt` at random, with a fixed fallback
phrase if the file has no lines. The catalog (the file's lines) and the random
index are parameters: the file's content ships next to the sources and the RNG
draw is external input. -/
def random_moderation_response (catalog : List String) (pick : Nat) : String :=
  (catalog.get? pick).getD "Crikey, I'm not sure what to say"

/-- Final outcome of one run of the reply pipeline: a returned string, an
`eyre` error reported to the caller, or a thread-aborting panic. -/
inductive ReplyOutcome
  | ok (s : String)
  | error (e : String)
  | panic (e : String)
deriving DecidableEq, Repr

/-- Observable result of one run of `chatbot.rs::reply` for one conversation:
the outcome, the conversation's persisted history afterwards, whether the
Completion Service's chat endpoint was called, and the message list sent to
it (empty when it was never called). -/
structure ReplyResult where
  outcome : ReplyOutcome
  store : List Model.Message
  chatCalled : Bool
  requestMessages : List Model.Message
deriving DecidableEq, Repr

/-- `reply` from `src/chatbot.rs`, for one conversation, with the external
collaborators as explicit inputs: `moderation` is the moderation endpoint's
verdict, `choices` the chat endpoint's candidate list, `prompt` the rendered
system prompt, `content` the decoded inbound text, `store` the conversation's
persisted history (ascending), `catalog`/`pick` the stock-phrase catalog and
the RNG draw.

Steps, in source order: moderate the input (flagged → stock phrase, nothing
persisted, no chat call); `add_user_message`; fetch `history`; render the
prompt and `insert(0, system prompt)` into the message list; call the chat
endpoint; take `choices.into_iter().next()` (`"No response"` error when the
list is empty); convert via `TryFrom` (may panic); persist the converted
message; return its plain-text rendering. -/
def reply (moderation : String → Bool) (choices : List Model.RespMessage)
    (prompt content : String) (store : List Model.Message)
    (catalog : List String) (pick : Nat) : ReplyResult :=
  if moderation content then
    ⟨.ok (random_moderation_response catalog pick), store, false, []⟩
  else
    let store1 := store ++ [Model.Message.new .user content]
    let messages := Model.Message.new .system prompt :: store1
    match choices.head? with
    | none => ⟨.error "No response", store1, true, messages⟩
    | some choice =>
      match Model.messageTryFrom choice with
      | .panic e => ⟨.panic e, store1, true, messages⟩
      | .ok m => ⟨.ok m.content, store1 ++ [m], true, messages⟩

end Chatbot

namespace Handler

/-- A candidate message of the older `async_openai` API used by
`src/main.rs`: `choice.message.content` is a plain `String` there. -/
structure Choice where
  role : Model.OpenAIRole
  content : String
deriving DecidableEq, Repr

/-- A persisted `db.rs` message as written by `Handler::reply` (the store
assigns the sequence id; only role and content are chosen by the caller). -/
structure StoredMsg where
  role : Db.Role
  content : String
deriving DecidableEq, Repr

/-- Observable result of one run of `Handler::reply` (`src/main.rs`). -/
structure HReplyResult where
  outcome : Chatbot.ReplyOutcome
  store : List StoredMsg
  chatCalled : Bool
  requestMessages : List StoredMsg
deriving DecidableEq, Repr

/-- `Handler::reply` from `src/main.rs`, for one conversation, with external
collaborators as explicit inputs (`pickIn`/`pickOut` are the RNG draws for the
input- and output-moderation deflections).

Steps, in source order: moderate the input (flagged → stock phrase, nothing
persisted, no chat call); `add_message(user)`; fetch `history`;
`messages.insert(messages.len() - 1, system_prompt)` — i.e. the system prompt
goes in front of the *last* history entry; call the chat endpoint; loop over
all choices, persisting each `assistant`-role choice and remembering the last
one as the reply (non-assistant choices are only logged); no reply →
`"No reply found"` error; otherwise moderate the reply text (flagged → stock
phrase, with the persisted assistant messages kept) and return it. -/
def reply (moderation : String → Bool) (choices : List Choice)
    (prompt content : String) (store : List StoredMsg)
    (catalog : List String) (pickIn pickOut : Nat) : HReplyResult :=
  if moderation content then
    ⟨.ok (Chatbot.random_moderation_response catalog pickIn), store, false, []⟩
  else
    let store1 := store ++ [⟨.user, content⟩]
    let hist := store1
    let messages := hist.take (hist.length - 1) ++
      ⟨Db.Role.system, prompt⟩ :: hist.drop (hist.length - 1)
    let assistantChoices := choices.filter (fun c => c.role == .assistant)
    let store2 := store1 ++ assistantChoices.map (fun c => (⟨.assistant, c.content⟩ : StoredMsg))
    match (assistantChoices.map (fun c => c.content)).getLast? with
    | none => ⟨.error "No reply found", store2, true, messages⟩
    | some r =>
      if moderation r then
        ⟨.ok (Chatbot.random_moderation_response catalog pickOut), store2, true, messages⟩
      else
        ⟨.ok r, store2, true, messages⟩

end Handler

namespace Handler

/-! ## Mention codec (`src/main.rs`)

The mention cache is a `bimap::BiMap<String, String>` with the reference
token (e.g. `<@42>`) on the left and the display name (e.g. `@Ada`) on the
right. It is modelled as an association list of `(token, displayName)`
character-list pairs; `BiMap` iteration order is hash-dependent and otherwise
unspecified, which the list order stands in for. -/

/-- `bimap::BiMap::insert`: inserts the pair, first removing any pair that
shares its left key or its right value. -/
def bimapInsert (cache : List (List Char × List Char)) (l r : List Char) :
    List (List Char × List Char) :=
  cache.filter (fun p => !(p.1 == l) && !(p.2 == r)) ++ [(l, r)]

/-- The canonical token text `format!("<@{}>", user_id)` used by
`decode_user_mentions_from_str` both as cache key and as fallback output. -/
def canonKey (v : Nat) : List Char :=
  '<' :: '@' :: (toString v).data ++ ['>']

/-- The `regex` crate's `\d` is Unicode-aware by default: it matches the full
`Nd` (decimal number) general category, not just ASCII `0-9`. These are the
`Nd` code-point ranges of the Unicode character database (version 14.0). -/
def isNd (c : Char) : Bool :=
  let n := c.toNat
  (0x30 ≤ n && n ≤ 0x39) ||
    (0x660 ≤ n && n ≤ 0x669) ||
    (0x6F0 ≤ n && n ≤ 0x6F9) ||
    (0x7C0 ≤ n && n ≤ 0x7C9) ||
    (0x966 ≤ n && n ≤ 0x96F) ||
    (0x9E6 ≤ n && n ≤ 0x9EF) ||
    (0xA66 ≤ n && n ≤ 0xA6F) ||
    (0xAE6 ≤ n && n ≤ 0xAEF) ||
    (0xB66 ≤ n && n ≤ 0xB6F) ||
    (0xBE6 ≤ n && n ≤ 0xBEF) ||
    (0xC66 ≤ n && n ≤ 0xC6F) ||
    (0xCE6 ≤ n && n ≤ 0xCEF) ||
    (0xD66 ≤ n && n ≤ 0xD6F) ||
    (0xDE6 ≤ n && n ≤ 0xDEF) ||
    (0xE50 ≤ n && n ≤ 0xE59) ||
    (0xED0 ≤ n && n ≤ 0xED9) ||
    (0xF20 ≤ n && n ≤ 0xF29) ||
    (0x1040 ≤ n && n ≤ 0x1049) ||
    (0x1090 ≤ n && n ≤ 0x1099) ||
    (0x17E0 ≤ n && n ≤ 0x17E9) ||
    (0x1810 ≤ n && n ≤ 0x1819) ||
    (0x1946 ≤ n && n ≤ 0x194F) ||
    (0x19D0 ≤ n && n ≤ 0x19D9) ||
    (0x1A80 ≤ n && n ≤ 0x1A89) ||
    (0x1A90 ≤ n && n ≤ 0x1A99) ||
    (0x1B50 ≤ n && n ≤ 0x1B59) ||
    (0x1BB0 ≤ n && n ≤ 0x1BB9) ||
    (0x1C40 ≤ n && n ≤ 0x1C49) ||
    (0x1C50 ≤ n && n ≤ 0x1C59) ||
    (0xA620 ≤ n && n ≤ 0xA629) ||
    (0xA8D0 ≤ n && n ≤ 0xA8D9) ||
    (0xA900 ≤ n && n ≤ 0xA909) ||
    (0xA9D0 ≤ n && n ≤ 0xA9D9) ||
    (0xA9F0 ≤ n && n ≤ 0xA9F9) ||
    (0xAA50 ≤ n && n ≤ 0xAA59) ||
    (0xABF0 ≤ n && n ≤ 0xABF9) ||
    (0xFF10 ≤ n && n ≤ 0xFF19) ||
    (0x104A0 ≤ n && n ≤ 0x104A9) ||
    (0x10D30 ≤ n && n ≤ 0x10D39) ||
    (0x11066 ≤ n && n ≤ 0x1106F) ||
    (0x110F0 ≤ n && n ≤ 0x110F9) ||
    (0x11136 ≤ n && n ≤ 0x1113F) ||
    (0x111D0 ≤ n && n ≤ 0x111D9) ||
    (0x112F0 ≤ n && n ≤ 0x112F9) ||
    (0x11450 ≤ n && n ≤ 0x11459) ||
    (0x114D0 ≤ n && n ≤ 0x114D9) ||
    (0x11650 ≤ n && n ≤ 0x11659) ||
    (0x116C0 ≤ n && n ≤ 0x116C9) ||
    (0x11730 ≤ n && n ≤ 0x11739) ||
    (0x118E0 ≤ n && n ≤ 0x118E9) ||
    (0x11950 ≤ n && n ≤ 0x11959) ||
    (0x11C50 ≤ n && n ≤ 0x11C59) ||
    (0x11D50 ≤ n && n ≤ 0x11D59) ||
    (0x11DA0 ≤ n && n ≤ 0x11DA9) ||
    (0x16A60 ≤ n && n ≤ 0x16A69) ||
    (0x16AC0 ≤ n && n ≤ 0x16AC9) ||
    (0x16B50 ≤ n && n ≤ 0x16B59) ||
    (0x1D7CE ≤ n && n ≤ 0x1D7FF) ||
    (0x1E140 ≤ n && n ≤ 0x1E149) ||
    (0x1E2F0 ≤ n && n ≤ 0x1E2F9) ||
    (0x1E950 ≤ n && n ≤ 0x1E959) ||
    (0x1FBF0 ≤ n && n ≤ 0x1FBF9)

/-- Value of an ASCII digit string. -/
def digitsToNat (ds : List Char) : Nat :=
  ds.foldl (fun acc c => acc * 10 + (c.toNat - '0'.toNat)) 0

/-- `str::parse::<u64>` on a captured `\d+` group: Rust's `u64` parsing
accepts only the ASCII digits `0-9`, so a captured Unicode digit outside
ASCII is an `InvalidDigit` error, and a value of `2^64` or more is an
overflow error; otherwise the numeric value is returned. -/
def parseU64 (ds : List Char) : Option Nat :=
  if !ds.isEmpty && ds.all Char.isDigit && digitsToNat ds < 2 ^ 64 then
    some (digitsToNat ds)
  else none

/-- One attempted match of the regex `<@(\d+)>` at the head of the text:
`<`, `@`, one or more Unicode decimal digits (`\d` = `\p{Nd}`), `>`.
Returns the captured digit string and the rest of the text after the match
(no parsing happens at match time). -/
def matchMention : List Char → Option (List Char × List Char)
  | '<' :: '@' :: rest =>
    let ds := rest.takeWhile isNd
    match rest.dropWhile isNd with
    | '>' :: r => if ds.isEmpty then none else some (ds, r)
    | _ => none
  | _ => none

/-- The sequence of digit strings captured by `re.captures_iter` over the
text for the pattern `<@(\d+)>`: leftmost, non-overlapping matches. The fuel
argument (instantiated with the text's length, which bounds the number of
scan steps) makes the recursion structural. -/
def capturedDigitsAux : Nat → List Char → List (List Char)
  | 0, _ => []
  | _, [] => []
  | fuel + 1, c :: cs =>
    match matchMention (c :: cs) with
    | some (ds, r) => ds :: capturedDigitsAux fuel r
    | none => capturedDigitsAux fuel cs

/-- All digit groups captured by `<@(\d+)>` over the text, in order. -/
def capturedDigits (t : List Char) : List (List Char) :=
  capturedDigitsAux t.length t

/-- The resolution loop of `decode_user_mentions_from_str` (`src/main.rs`),
walking the captured digit groups in order with the current cache and the
list of values the resolver has been invoked on so far. Per token:
`user_id.parse::<u64>()?` runs first, so a group with a non-ASCII Unicode
digit or an overflowing value aborts the whole decode with an error; a token
already cached (`contains_left`, keyed on the re-rendered canonical
`<@{id}>`) is skipped; otherwise the resolver (the gateway user/member
lookup) is invoked — a failed lookup aborts the whole decode via `?`, a
successful one inserts `(token, "@" ++ name)` into the cache. -/
def phase1 (resolver : Nat → Option String) :
    List (List Char × List Char) → List Nat → List (List Char) →
    Except Unit (List (List Char × List Char) × List Nat)
  | cache, inv, [] => .ok (cache, inv)
  | cache, inv, ds :: rest =>
    match parseU64 ds with
    | none => .error ()
    | some v =>
      if cache.any (fun p => p.1 == canonKey v) then
        phase1 resolver cache inv rest
      else
        match resolver v with
        | some nick =>
          phase1 resolver (bimapInsert cache (canonKey v) ('@' :: nick.data)) (inv ++ [v]) rest
        | none => .error ()

/-- The rewrite pass of `decode_user_mentions_from_str` (`src/main.rs`):
`re.replace_all` over the text; each `<@(\d+)>` match is replaced by
`mentions.get_by_left(&mention).cloned().unwrap_or(mention)` where `mention`
is the canonical token re-rendered from the parsed number (the closure's
`parse::<u64>().unwrap_or(0)` falls back to `0` on a parse failure). Fuel as
in `capturedDigitsAux`. -/
def phase2Aux (cache : List (List Char × List Char)) : Nat → List Char → List Char
  | 0, t => t
  | _, [] => []
  | fuel + 1, c :: cs =>
    match matchMention (c :: cs) with
    | some (ds, r) =>
      let key := canonKey ((parseU64 ds).getD 0)
      ((cache.find? (fun p => p.1 == key)).map (fun p => p.2)).getD key ++
        phase2Aux cache fuel r
    | none => c :: phase2Aux cache fuel cs

/-- The full rewrite pass over the text. -/
def phase2 (cache : List (List Char × List Char)) (t : List Char) : List Char :=
  phase2Aux cache t.length t

/-- `Handler::decode_user_mentions_from_str` from `src/main.rs`: resolve all
uncached captured tokens (any parse or lookup failure aborts the whole call),
then rewrite every token occurrence. Returns the rewritten text, the updated
cache, and the list of values the resolver was invoked on. -/
def decode_user_mentions_from_str (cache : List (List Char × List Char))
    (resolver : Nat → Option String) (text : List Char) :
    Except Unit (List Char × List (List Char × List Char) × List Nat) :=
  match phase1 resolver cache [] (capturedDigits text) with
  | .error e => .error e
  | .ok (cache', inv) => .ok (phase2 cache' text, cache', inv)

/-- `Handler::encode_user_mentions` from `src/main.rs`: `re.replace_all` with
the alternation of all cached display names (escaped, joined by `|`, in cache
iteration order, case-sensitive). The `regex` crate matches leftmost-first:
at each position the first alternative (here: the first cache entry whose
display name is a literal prefix of the remaining text) wins, the matched
name is replaced by its token via `get_by_right`, and scanning resumes after
it. Display names are never empty in the source (always `'@'`-prefixed), so
empty names are excluded from matching; fuel as in `capturedDigitsAux`. -/
def scanReplaceAux (cache : List (List Char × List Char)) :
    Nat → List Char → List Char
  | 0, t => t
  | _, [] => []
  | fuel + 1, c :: cs =>
    match cache.find? (fun p => !p.2.isEmpty && p.2.isPrefixOf (c :: cs)) with
    | some p => p.1 ++ scanReplaceAux cache fuel ((c :: cs).drop p.2.length)
    | none => c :: scanReplaceAux cache fuel cs

/-- `Handler::encode_user_mentions` over a whole text. -/
def encode_user_mentions (cache : List (List Char × List Char))
    (t : List Char) : List Char :=
  scanReplaceAux cache t.length t

/-- Case-insensitive prefix test on character lists. -/
def ciPrefixOf (a t : List Char) : Bool :=
  (a.map Char.toLower).isPrefixOf (t.map Char.toLower)

/-- The longest-named entry among the candidates (first wins ties). -/
def pickLongest (cands : List (List Char × List Char)) :
    Option (List Char × List Char) :=
  cands.foldl
    (fun best p =>
      match best with
      | none => some p
      | some q => if q.2.length < p.2.length then some p else some q)
    none

/-- Modelled from the spec (for comparison with `encode_user_mentions`, not
from the source): `encode` as §4.2 words it — every occurrence of a cached
display name is replaced by its token, matching case-insensitively and
longest-match-first. -/
def encodeSpecAux (cache : List (List Char × List Char)) :
    Nat → List Char → List Char
  | 0, t => t
  | _, [] => []
  | fuel + 1, c :: cs =>
    match pickLongest (cache.filter (fun p => !p.2.isEmpty && ciPrefixOf p.2 (c :: cs))) with
    | some p => p.1 ++ encodeSpecAux cache fuel ((c :: cs).drop p.2.length)
    | none => c :: encodeSpecAux cache fuel cs

/-- Modelled from the spec: `encode` per the spec's words, over a whole text. -/
def encodeSpec (cache : List (List Char × List Char)) (t : List Char) : List Char :=
  encodeSpecAux cache t.length t

end Handler

/-! ## Claims -/

/-- C7: `Role` is a closed four-value enumeration (system, user, assistant,
function); the round-trip through the compact persisted representation is the
identity, the round-trip through the Completion Service's role vocabulary is
the identity, and both mappings are total and unambiguous in both directions
(including the three-value `db.rs` variant's `u8` encoding). -/
theorem role_roundtrips :
    ((∀ r : Model.Role,
        r ∈ [Model.Role.system, .user, .assistant, .function]) ∧
      ([Model.Role.system, .user, .assistant, .function].Nodup)) ∧
    (∀ r : Model.Role, r.toOpenAI.toRole = r) ∧
    (∀ o : Model.OpenAIRole, o.toRole.toOpenAI = o) ∧
    (∀ r : Model.Role, Model.Role.fromU8 r.toU8 = some r) ∧
    (∀ n : Nat, ∀ r : Model.Role, Model.Role.fromU8 n = some r → r.toU8 = n) ∧
    (∀ r : Db.Role, Db.Role.tryFromU8 r.toU8 = .ok r) ∧
    (∀ n : Nat, ∀ r : Db.Role, Db.Role.tryFromU8 n = .ok r → r.toU8 = n) := by
  refine ⟨⟨?_, by decide⟩, ?_, ?_, ?_, ?_, ?_, ?_⟩
  · intro r; cases r <;> simp
  · intro r; cases r <;> rfl
  · intro o; cases o <;> rfl
  · intro r; cases r <;> rfl
  · intro n r h
    cases r <;>
      (unfold Model.Role.fromU8 at h; split_ifs at h <;> simp_all [Model.Role.toU8])
  · intro r; cases r <;> rfl
  · intro n r h
    cases r <;>
      (unfold Db.Role.tryFromU8 at h; split_ifs at h <;> simp_all [Db.Role.toU8])

/-- C7 witness: the persisted byte `3` decodes to `function` and re-encodes
to `3`. -/
theorem role_roundtrips_witness :
    Model.Role.fromU8 3 = some Model.Role.function ∧
      Model.Role.toU8 Model.Role.function = 3 :=
  ⟨by decide, role_roundtrips.2.2.2.2.1 3 Model.Role.function (by decide)⟩

/-- C8 (code bug): a well-formed-transport but malformed candidate — both
literal content and a function call, or neither — is NOT surfaced as a
completion error: the `TryFrom` conversion in `src/schema/model.rs` hits
`unreachable!("Invalid response from OpenAI")`, i.e. it panics, and through
`reply` the panic aborts the event handler instead of producing an error
value. This theorem evaluates the code at the failing inputs. -/
theorem messageTryFrom_panics_on_malformed :
    Model.messageTryFrom ⟨.assistant, none, none⟩ =
      .panic "internal error: entered unreachable code: Invalid response from OpenAI" ∧
    Model.messageTryFrom ⟨.assistant, some "x", some ("f", "{}")⟩ =
      .panic "internal error: entered unreachable code: Invalid response from OpenAI" ∧
    (Chatbot.reply (fun _ => false) [⟨.assistant, none, none⟩] "p" "hi" [] [] 0).outcome =
      .panic "internal error: entered unreachable code: Invalid response from OpenAI" := by
  exact ⟨rfl, rfl, rfl⟩

/-- C5: if input moderation flags the inbound text, `reply` returns a phrase
drawn from the stock-phrase catalog, never calls the Completion Service's
chat endpoint, and never appends a user message to the store. -/
theorem reply_moderation_short_circuit
    (moderation : String → Bool) (choices : List Model.RespMessage)
    (prompt content : String) (store : List Model.Message)
    (catalog : List String) (pick : Nat)
    (hflag : moderation content = true) :
    Chatbot.reply moderation choices prompt content store catalog pick =
      ⟨.ok (Chatbot.random_moderation_response catalog pick), store, false, []⟩ ∧
    (pick < catalog.length →
      Chatbot.random_moderation_response catalog pick ∈ catalog) := by
  constructor
  · unfold Chatbot.reply
    rw [hflag]
    simp
  · intro h
    unfold Chatbot.random_moderation_response
    rw [List.get?_eq_get h]
    exact List.get_mem catalog pick h

/-- C5 witness: with a moderation stub that always flags, the pipeline
deflects with the only catalog phrase, calls nothing, persists nothing. -/
theorem reply_moderation_short_circuit_witness :
    Chatbot.reply (fun _ => true) [] "p" "hi" [] ["neigh"] 0 =
      ⟨.ok "neigh", [], false, []⟩ ∧ ("neigh" : String) ∈ ["neigh"] := by
  have h := reply_moderation_short_circuit (fun _ => true) [] "p" "hi" [] ["neigh"] 0 rfl
  exact ⟨h.1, h.2 (by decide)⟩

/-- C3: in the Assemble step of `reply` (`src/chatbot.rs`), the rendered
system prompt is the first element of the message list sent to the Completion
Service, followed by the full persisted history — the prior store plus the
just-persisted user message — in ascending order. -/
theorem reply_assembles_prompt_first
    (moderation : String → Bool) (choices : List Model.RespMessage)
    (prompt content : String) (store : List Model.Message)
    (catalog : List String) (pick : Nat)
    (hflag : moderation content = false) :
    (Chatbot.reply moderation choices prompt content store catalog pick).requestMessages =
      Model.Message.new .system prompt ::
        (store ++ [Model.Message.new .user content]) ∧
    (Chatbot.reply moderation choices prompt content store catalog pick).chatCalled = true := by
  unfold Chatbot.reply
  rw [hflag]
  cases h : (choices.head?) with
  | none => simp [h]
  | some c =>
    cases hm : Model.messageTryFrom c with
    | ok m => simp [h, hm]
    | panic e => simp [h, hm]

/-- C3 witness: concrete run with empty prior history. -/
theorem reply_assembles_prompt_first_witness :
    (Chatbot.reply (fun _ => false) [] "sys" "hi" [] [] 0).requestMessages =
      [Model.Message.new .system "sys", Model.Message.new .user "hi"] ∧
    (Chatbot.reply (fun _ => false) [] "sys" "hi" [] [] 0).chatCalled = true :=
  reply_assembles_prompt_first (fun _ => false) [] "sys" "hi" [] [] 0 rfl

/-- C4 counterexample: the claim says Invoke selects the first entry whose
role is `assistant` or which carries a function invocation, and fails with a
no-reply error otherwise. Here the completion returns a single candidate with
role `user` and no function call — per the claim there is no candidate, so
`reply` should fail with the store holding the user message only; the code
instead accepts it, persists it, and returns its text. -/
theorem reply_takes_any_first_choice :
    (Chatbot.reply (fun _ => false) [⟨.user, some "x", none⟩] "p" "hi" [] [] 0).outcome =
      .ok "x" ∧
    (Chatbot.reply (fun _ => false) [⟨.user, some "x", none⟩] "p" "hi" [] [] 0).store =
      [Model.Message.new .user "hi", Model.Message.Content .user "x"] := by
  exact ⟨rfl, rfl⟩

/-- C4 amended: the Invoke step takes the first response entry
unconditionally, whatever its role or payload (`choices.into_iter().next()`);
only when the candidate list is empty does the call fail, with the
`"No response"` error, and then the store contains the user message only (no
assistant message appended). -/
theorem reply_invoke_first_unconditional
    (moderation : String → Bool) (choices : List Model.RespMessage)
    (prompt content : String) (store : List Model.Message)
    (catalog : List String) (pick : Nat)
    (hflag : moderation content = false) :
    (choices = [] →
      (Chatbot.reply moderation choices prompt content store catalog pick).outcome =
        .error "No response" ∧
      (Chatbot.reply moderation choices prompt content store catalog pick).store =
        store ++ [Model.Message.new .user content]) ∧
    (∀ c cs, choices = c :: cs →
      Chatbot.reply moderation choices prompt content store catalog pick =
        Chatbot.reply moderation [c] prompt content store catalog pick) := by
  constructor
  · rintro rfl
    unfold Chatbot.reply
    rw [hflag]
    simp
  · rintro c cs rfl
    unfold Chatbot.reply
    rw [hflag]
    simp

/-- C4 witness: with an empty candidate list the call errs and only the user
message is persisted; a two-candidate list behaves as its first candidate
alone. -/
theorem reply_invoke_first_unconditional_witness :
    ((Chatbot.reply (fun _ => false) ([] : List Model.RespMessage) "p" "hi" [] [] 0).outcome =
        .error "No response" ∧
      (Chatbot.reply (fun _ => false) ([] : List Model.RespMessage) "p" "hi" [] [] 0).store =
        [] ++ [Model.Message.new .user "hi"]) ∧
    Chatbot.reply (fun _ => false)
        [⟨.assistant, some "a", none⟩, ⟨.assistant, some "b", none⟩] "p" "hi" [] [] 0 =
      Chatbot.reply (fun _ => false) [⟨.assistant, some "a", none⟩] "p" "hi" [] [] 0 :=
  ⟨(reply_invoke_first_unconditional (fun _ => false) [] "p" "hi" [] [] 0 rfl).1 rfl,
    (reply_invoke_first_unconditional (fun _ => false)
        [⟨.assistant, some "a", none⟩, ⟨.assistant, some "b", none⟩] "p" "hi" [] [] 0 rfl).2
      ⟨.assistant, some "a", none⟩ [⟨.assistant, some "b", none⟩] rfl⟩

/-- C6: in `Handler::reply` (`src/main.rs`), after the assistant candidate is
persisted its plain text goes to output moderation; if flagged, the text shown
to the user is replaced by a stock deflection phrase while the persisted
assistant message(s) remain in the store unchanged — no rollback. -/
theorem handler_reply_no_rollback
    (moderation : String → Bool) (choices : List Handler.Choice)
    (prompt content : String) (store : List Handler.StoredMsg)
    (catalog : List String) (pickIn pickOut : Nat) (r : String)
    (hIn : moderation content = false)
    (hlast : ((choices.filter (fun c => c.role == .assistant)).map
        (fun c => c.content)).getLast? = some r)
    (hOut : moderation r = true) :
    (Handler.reply moderation choices prompt content store catalog pickIn pickOut).outcome =
      .ok (Chatbot.random_moderation_response catalog pickOut) ∧
    (Handler.reply moderation choices prompt content store catalog pickIn pickOut).store =
      (store ++ [⟨.user, content⟩]) ++
        (choices.filter (fun c => c.role == .assistant)).map
          (fun c => (⟨.assistant, c.content⟩ : Handler.StoredMsg)) ∧
    (pickOut < catalog.length →
      Chatbot.random_moderation_response catalog pickOut ∈ catalog) := by
  refine ⟨?_, ?_, ?_⟩
  · unfold Handler.reply
    rw [hIn]
    simp only [Bool.false_eq_true, if_false, hlast, hOut, if_true]
  · unfold Handler.reply
    rw [hIn]
    simp only [Bool.false_eq_true, if_false, hlast, hOut, if_true]
  · intro h
    unfold Chatbot.random_moderation_response
    rw [List.get?_eq_get h]
    exact List.get_mem catalog pickOut h

/-- C6 witness: the assistant text `"bad"` is flagged on the way out; the
user sees the stock phrase while `"bad"` stays persisted. -/
theorem handler_reply_no_rollback_witness :
    (Handler.reply (fun s => s == "bad") [⟨.assistant, "bad"⟩] "p" "hi" [] ["neigh"] 0 0).outcome =
      .ok "neigh" ∧
    (Handler.reply (fun s => s == "bad") [⟨.assistant, "bad"⟩] "p" "hi" [] ["neigh"] 0 0).store =
      [⟨.user, "hi"⟩, ⟨.assistant, "bad"⟩] ∧ ("neigh" : String) ∈ ["neigh"] := by
  have h := handler_reply_no_rollback (fun s => s == "bad") [⟨.assistant, "bad"⟩]
    "p" "hi" [] ["neigh"] 0 0 "bad" rfl rfl rfl
  exact ⟨h.1, h.2.1, h.2.2 (by decide)⟩

namespace Db

theorem mem_le_foldMax (rows : List (Nat × String)) (p : Nat × String)
    (hp : p ∈ rows) : p.1 ≤ rows.foldr (fun q acc => max q.1 acc) 0 := by
  induction rows with
  | nil => cases hp
  | cons q qs ih =>
    rcases List.mem_cons.mp hp with h | h
    · subst h; exact le_max_left _ _
    · exact le_trans (ih h) (le_max_right _ _)

theorem insertDoNothing_WF (t : ConvTable) (name : String) (h : t.WF) :
    (t.insertDoNothing name).WF := by
  obtain ⟨hids, hnames, hpos⟩ := h
  unfold ConvTable.insertDoNothing
  split
  · exact ⟨hids, hnames, hpos⟩
  · next hany =>
    refine ⟨?_, ?_, ?_⟩
    · simp only [List.map_append, List.map_cons, List.map_nil, List.nodup_append,
        List.nodup_cons, List.nodup_nil]
      refine ⟨hids, by simp, ?_⟩
      intro a ha hb
      simp only [List.mem_cons, List.not_mem_nil, or_false] at hb
      subst hb
      rcases List.mem_map.mp ha with ⟨p, hp, hpe⟩
      have := mem_le_foldMax t.rows p hp
      unfold ConvTable.nextId at hpe
      omega
    · simp only [List.map_append, List.map_cons, List.map_nil, List.nodup_append,
        List.nodup_cons, List.nodup_nil]
      refine ⟨hnames, by simp, ?_⟩
      intro a ha hb
      simp only [List.mem_cons, List.not_mem_nil, or_false] at hb
      rcases List.mem_map.mp ha with ⟨p, hp, hpe⟩
      have hfalse : (t.rows.any fun p => p.2 == name) = false :=
        Bool.eq_false_iff.mpr hany
      have := List.any_eq_false.mp hfalse p hp
      simp only [beq_iff_eq] at this
      exact this (by rw [hpe, hb])
    · intro p hp
      rcases List.mem_append.mp hp with h | h
      · exact hpos p h
      · simp only [List.mem_cons, List.not_mem_nil, or_false] at h
        subst h
        unfold ConvTable.nextId
        omega

theorem mem_name_insertDoNothing (t : ConvTable) (name : String) :
    (t.insertDoNothing name).rows.any (fun p => p.2 == name) = true := by
  unfold ConvTable.insertDoNothing
  split
  · assumption
  · simp

theorem insertDoNothing_of_mem (t : ConvTable) (name : String)
    (h : t.rows.any (fun p => p.2 == name) = true) :
    t.insertDoNothing name = t := by
  unfold ConvTable.insertDoNothing
  simp [h]

theorem rows_sub_insertDoNothing (t : ConvTable) (name : String) :
    ∀ p ∈ t.rows, p ∈ (t.insertDoNothing name).rows := by
  intro p hp
  unfold ConvTable.insertDoNothing
  split
  · exact hp
  · exact List.mem_append.mpr (Or.inl hp)

theorem selectId_mem (t : ConvTable) (name : String) (i : Nat)
    (h : t.selectId name = some i) :
    ∃ p ∈ t.rows, p.1 = i ∧ p.2 = name := by
  unfold ConvTable.selectId at h
  cases hf : t.rows.find? (fun p => p.2 == name) with
  | none => rw [hf] at h; cases h
  | some p =>
    rw [hf] at h
    refine ⟨p, List.mem_of_find?_eq_some hf, ?_, ?_⟩
    · simpa using h
    · have := List.find?_some hf
      simpa using this

theorem selectId_isSome_of_any (t : ConvTable) (name : String)
    (h : t.rows.any (fun p => p.2 == name) = true) :
    ∃ i, t.selectId name = some i := by
  unfold ConvTable.selectId
  rcases List.any_eq_true.mp h with ⟨p, hp, hpn⟩
  have : (t.rows.find? (fun p => p.2 == name)).isSome :=
    List.find?_isSome.mpr ⟨p, hp, hpn⟩
  cases hf : t.rows.find? (fun p => p.2 == name) with
  | none => rw [hf] at this; cases this
  | some q => exact ⟨q.1, rfl⟩

theorem find_conversation_ok (t : ConvTable) (name : String) (hwf : t.WF) :
    ∃ i, (find_conversation t name).1 = .ok i ∧ 0 < i ∧
      (find_conversation t name).2 = t.insertDoNothing name ∧
      (t.insertDoNothing name).selectId name = some i := by
  have hwf' := insertDoNothing_WF t name hwf
  obtain ⟨i, hi⟩ :=
    selectId_isSome_of_any (t.insertDoNothing name) name (mem_name_insertDoNothing t name)
  obtain ⟨p, hp, hp1, _⟩ := selectId_mem _ _ _ hi
  have hpos : 0 < i := hp1 ▸ hwf'.2.2 p hp
  refine ⟨i, ?_, hpos, ?_, hi⟩
  · unfold find_conversation
    rw [hi]
    simp [hpos]
  · unfold find_conversation
    rw [hi]
    simp [hpos]

end Db

/-- C1: conversation lookup (`Schema::find_conversation`, `src/db.rs`) is
idempotent and injective on any well-formed table: it always succeeds with a
positive id; a second call with the same name returns the same id; and two
sequential calls with distinct names return distinct ids. -/
theorem find_conversation_idempotent_and_injective
    (t : Db.ConvTable) (n1 n2 : String) (hwf : t.WF) :
    (∃ i1, (Db.find_conversation t n1).1 = .ok i1 ∧ 0 < i1) ∧
    (n1 = n2 →
      (Db.find_conversation (Db.find_conversation t n1).2 n2).1 =
        (Db.find_conversation t n1).1) ∧
    (n1 ≠ n2 → ∀ i1 i2,
      (Db.find_conversation t n1).1 = .ok i1 →
      (Db.find_conversation (Db.find_conversation t n1).2 n2).1 = .ok i2 →
      i1 ≠ i2) := by
  obtain ⟨i, hok, hpos, hsnd, hsel⟩ := Db.find_conversation_ok t n1 hwf
  have hwf1 : (t.insertDoNothing n1).WF := Db.insertDoNothing_WF t n1 hwf
  refine ⟨⟨i, hok, hpos⟩, ?_, ?_⟩
  · rintro rfl
    have hidem : (t.insertDoNothing n1).insertDoNothing n1 = t.insertDoNothing n1 :=
      Db.insertDoNothing_of_mem _ _ (Db.mem_name_insertDoNothing t n1)
    rw [hsnd]
    unfold Db.find_conversation
    rw [hidem]
  · intro hne i1 i2 h1 h2
    -- the first call returned the id of the entry named n1
    have hi1 : i1 = i := by rw [hok] at h1; cases h1; rfl
    subst hi1
    obtain ⟨p1, hp1mem, hp1id, hp1name⟩ := Db.selectId_mem _ _ _ hsel
    -- the second call returned the id of an entry named n2 in the final table
    rw [hsnd] at h2
    have hwf2 : ((t.insertDoNothing n1).insertDoNothing n2).WF :=
      Db.insertDoNothing_WF _ n2 hwf1
    obtain ⟨j, hok2, hpos2, hsnd2, hsel2⟩ := Db.find_conversation_ok (t.insertDoNothing n1) n2 hwf1
    have hi2 : i2 = j := by rw [hok2] at h2; cases h2; rfl
    subst hi2
    obtain ⟨p2, hp2mem, hp2id, hp2name⟩ := Db.selectId_mem _ _ _ hsel2
    -- both entries live in the final table; distinct names force distinct rows
    have hp1mem' : p1 ∈ ((t.insertDoNothing n1).insertDoNothing n2).rows :=
      Db.rows_sub_insertDoNothing _ n2 p1 hp1mem
    intro heq
    have hne' : p1 ≠ p2 := by
      intro hcontra
      apply hne
      rw [← hp1name, hcontra, hp2name]
    have hinj := List.inj_on_of_nodup_map hwf2.1 hp1mem' hp2mem
    exact hne' (hinj (by rw [hp1id, hp2id, heq]))

/-- C1 witness: on the empty table, `"#general"` gets id 1 twice and
`"#random"` then gets the distinct id 2. -/
theorem find_conversation_witness :
    (Db.find_conversation (⟨[]⟩ : Db.ConvTable) "#general").1 = .ok 1 ∧
    (Db.find_conversation (Db.find_conversation (⟨[]⟩ : Db.ConvTable) "#general").2
        "#random").1 = .ok 2 ∧ (1 : Nat) ≠ 2 := by
  refine ⟨rfl, rfl, ?_⟩
  exact (find_conversation_idempotent_and_injective ⟨[]⟩ "#general" "#random"
    (by decide)).2.2 (by decide) 1 2 rfl rfl

namespace Db

theorem insertById_perm (m : Message) (l : List Message) :
    List.Perm (insertById m l) (m :: l) := by
  induction l with
  | nil => rfl
  | cons x xs ih =>
    unfold insertById
    split
    · rfl
    · exact (ih.cons x).trans (List.Perm.swap m x xs)

theorem sortById_perm (l : List Message) : List.Perm (sortById l) l := by
  induction l with
  | nil => rfl
  | cons m ms ih => exact (insertById_perm m (sortById ms)).trans (ih.cons m)

theorem insertById_pairwise (m : Message) (l : List Message)
    (h : l.Pairwise (fun a b => a.id ≤ b.id)) :
    (insertById m l).Pairwise (fun a b => a.id ≤ b.id) := by
  induction l with
  | nil => simp [insertById]
  | cons x xs ih =>
    unfold insertById
    split
    · next hle =>
      refine List.Pairwise.cons ?_ h
      intro y hy
      rcases List.mem_cons.mp hy with hxy | hxy
      · subst hxy; exact hle
      · exact le_trans hle (List.rel_of_pairwise_cons h hxy)
    · next hgt =>
      refine List.Pairwise.cons ?_ (ih h.tail)
      intro y hy
      have hy' := (insertById_perm m xs).mem_iff.mp hy
      rcases List.mem_cons.mp hy' with hxy | hxy
      · subst hxy; omega
      · exact List.rel_of_pairwise_cons h hxy

theorem sortById_pairwise (l : List Message) :
    (sortById l).Pairwise (fun a b => a.id ≤ b.id) := by
  induction l with
  | nil => simp [sortById]
  | cons m ms ih => exact insertById_pairwise m (sortById ms) ih

theorem rowDecode_ok (r : HRow) (h : r.role < 3) :
    ∃ m, rowDecode r = .ok m ∧ m.id = r.id := by
  unfold rowDecode Role.tryFromU8
  split_ifs
  · exact ⟨_, rfl, rfl⟩
  · exact ⟨_, rfl, rfl⟩
  · exact ⟨_, rfl, rfl⟩
  · omega

theorem mapM_rowDecode_ok (rows : List HRow) (h : ∀ r ∈ rows, r.role < 3) :
    ∃ msgs, rows.mapM rowDecode = .ok msgs ∧
      msgs.map Message.id = rows.map HRow.id := by
  induction rows with
  | nil => exact ⟨[], rfl, rfl⟩
  | cons r rs ih =>
    obtain ⟨m, hm, hmid⟩ := rowDecode_ok r (h r (List.mem_cons_self r rs))
    obtain ⟨msgs, hms, hids⟩ := ih (fun q hq => h q (List.mem_cons_of_mem r hq))
    refine ⟨m :: msgs, ?_, ?_⟩
    · rw [List.mapM_cons, hm, hms]
      rfl
    · simp [hmid, hids]

end Db

/-- C2: `Schema::history` (`src/db.rs`) returns all of the conversation's
messages sorted in strictly ascending sequence-id order regardless of the
order in which the underlying query yields rows, and an empty list — not an
error — when there are none. (Sequence ids are SQLite rowids, hence pairwise
distinct; stored role bytes are 0–2 as written by `add_message`.) -/
theorem history_ascending (rows : List Db.HRow)
    (hroles : ∀ r ∈ rows, r.role < 3)
    (hids : (rows.map Db.HRow.id).Nodup) :
    ∃ out, Db.history rows = .ok out ∧
      (∃ msgs, rows.mapM Db.rowDecode = .ok msgs ∧ List.Perm out msgs ∧
        msgs.map Db.Message.id = rows.map Db.HRow.id) ∧
      out.Pairwise (fun a b => a.id < b.id) ∧
      (rows = [] → out = []) := by
  obtain ⟨msgs, hms, hmids⟩ := Db.mapM_rowDecode_ok rows hroles
  refine ⟨Db.sortById msgs, ?_, ⟨msgs, hms, Db.sortById_perm msgs, hmids⟩, ?_, ?_⟩
  · unfold Db.history
    rw [hms]
    rfl
  · have hperm : List.Perm (Db.sortById msgs) msgs := Db.sortById_perm msgs
    have hnodup : ((Db.sortById msgs).map Db.Message.id).Nodup :=
      ((hperm.map Db.Message.id).nodup_iff).mpr (hmids ▸ hids)
    have hne : (Db.sortById msgs).Pairwise (fun a b => a.id ≠ b.id) :=
      List.pairwise_map.mp hnodup
    exact ((Db.sortById_pairwise msgs).and hne).imp
      (fun hab => lt_of_le_of_ne hab.1 hab.2)
  · rintro rfl
    have : msgs = [] := by
      have : Except.ok (ε := String) msgs = .ok [] := by rw [← hms]; rfl
      cases this
      rfl
    subst this
    rfl

/-- C2 witness: rows delivered in the order 3, 1, 2 come back as messages
1, 2, 3. -/
theorem history_ascending_witness :
    ∃ out, Db.history [⟨3, 1, "c"⟩, ⟨1, 0, "a"⟩, ⟨2, 2, "b"⟩] = .ok out ∧
      (∃ msgs, ([⟨3, 1, "c"⟩, ⟨1, 0, "a"⟩, (⟨2, 2, "b"⟩ : Db.HRow)].mapM Db.rowDecode) =
          .ok msgs ∧ List.Perm out msgs ∧
        msgs.map Db.Message.id = [(3 : Int), 1, 2]) ∧
      out.Pairwise (fun a b => a.id < b.id) ∧
      ([⟨3, 1, "c"⟩, ⟨1, 0, "a"⟩, (⟨2, 2, "b"⟩ : Db.HRow)] = [] → out = []) :=
  history_ascending [⟨3, 1, "c"⟩, ⟨1, 0, "a"⟩, ⟨2, 2, "b"⟩] (by decide) (by decide)

namespace Handler

theorem scanReplaceAux_id (cache : List (List Char × List Char)) :
    ∀ (fuel : Nat) (t : List Char),
      (∀ p ∈ cache, ¬ (p.2 <:+: t)) → scanReplaceAux cache fuel t = t := by
  intro fuel
  induction fuel with
  | zero => intro t _; cases t <;> rfl
  | succ f ih =>
    intro t h
    cases t with
    | nil => rfl
    | cons c cs =>
      have hfind :
          cache.find? (fun p => !p.2.isEmpty && p.2.isPrefixOf (c :: cs)) = none := by
        rw [List.find?_eq_none]
        intro p hp hpred
        simp only [Bool.and_eq_true] at hpred
        rcases hpred with ⟨_, hpre⟩
        exact h p hp (List.IsPrefix.isInfix (List.isPrefixOf_iff_prefix.mp hpre))
      simp only [scanReplaceAux, hfind]
      congr 1
      exact ih cs (fun p hp hinf => h p hp (List.infix_cons hinf))

theorem scanReplaceAux_fuel (cache : List (List Char × List Char)) :
    ∀ (fuel fuel' : Nat) (t : List Char),
      t.length ≤ fuel → t.length ≤ fuel' →
      scanReplaceAux cache fuel t = scanReplaceAux cache fuel' t := by
  intro fuel
  induction fuel with
  | zero =>
    intro fuel' t h _
    have ht : t = [] := List.length_eq_zero.mp (Nat.le_zero.mp h)
    subst ht
    cases fuel' <;> rfl
  | succ f ih =>
    intro fuel' t h h'
    cases t with
    | nil => cases fuel' <;> rfl
    | cons c cs =>
      cases fuel' with
      | zero => simp at h'
      | succ f' =>
        cases hfind :
            cache.find? (fun p => !p.2.isEmpty && p.2.isPrefixOf (c :: cs)) with
        | none =>
          simp only [scanReplaceAux, hfind]
          congr 1
          simp only [List.length_cons] at h h'
          exact ih f' cs (by omega) (by omega)
        | some p =>
          have hlen1 : 1 ≤ p.2.length := by
            have hpred := List.find?_some hfind
            simp only [Bool.and_eq_true] at hpred
            rcases hpred with ⟨h1, _⟩
            cases hp2 : p.2 with
            | nil => rw [hp2] at h1; simp at h1
            | cons a as => simp [hp2]
          simp only [scanReplaceAux, hfind]
          congr 1
          simp only [List.length_cons] at h h'
          have hdrop : ((c :: cs).drop p.2.length).length = cs.length + 1 - p.2.length := by
            rw [List.length_drop, List.length_cons]
          exact ih f' _ (by omega) (by omega)

end Handler

/-- C10 counterexample: with cached pairs `(<@1>, @Ab)` and `(<@2>, @Abc)`,
on input `"@abc @Abc"` the claim (case-insensitive, longest-match-first)
requires `"<@2> <@2>"`, as the spec-worded model `encodeSpec` computes; the
code's `encode_user_mentions` is case-sensitive (leaving `"@abc"` untouched)
and first-listed-wins (replacing the `"@Ab"` prefix inside `"@Abc"`, a
partial replacement), producing `"@abc <@1>c"`. -/
theorem encode_user_mentions_counterexample :
    Handler.encode_user_mentions
        [("<@1>".data, "@Ab".data), ("<@2>".data, "@Abc".data)] ("@abc @Abc".data) =
      "@abc <@1>c".data ∧
    Handler.encodeSpec
        [("<@1>".data, "@Ab".data), ("<@2>".data, "@Abc".data)] ("@abc @Abc".data) =
      "<@2> <@2>".data ∧
    "@abc <@1>c".data ≠ "<@2> <@2>".data := by
  exact ⟨by decide, by decide, by decide⟩

/-- C10 amended: `encode_user_mentions` (`src/main.rs`) replaces occurrences
of cached display names case-sensitively, with the candidate names tried in
cache order at each position — the first cached name that literally matches
wins, not the longest — and any text containing no cached display name
(case-sensitively) is left untouched. -/
theorem encode_user_mentions_amended
    (cache : List (List Char × List Char)) (t : List Char)
    (k n b : List Char) :
    ((∀ p ∈ cache, ¬ (p.2 <:+: t)) → Handler.encode_user_mentions cache t = t) ∧
    (n ≠ [] →
      cache.find? (fun p => !p.2.isEmpty && p.2.isPrefixOf (n ++ b)) = some (k, n) →
      Handler.encode_user_mentions cache (n ++ b) =
        k ++ Handler.encode_user_mentions cache b) := by
  constructor
  · intro h
    exact Handler.scanReplaceAux_id cache t.length t h
  · intro hn hfind
    cases n with
    | nil => exact absurd rfl hn
    | cons nc ns =>
      show Handler.scanReplaceAux cache ((nc :: ns ++ b).length) (nc :: ns ++ b) = _
      have hcons : (nc :: ns) ++ b = nc :: (ns ++ b) := rfl
      rw [hcons] at hfind ⊢
      simp only [List.length_cons]
      simp only [Handler.scanReplaceAux, hfind]
      have hdrop : (nc :: (ns ++ b)).drop (nc :: ns).length = b := by
        rw [← hcons, List.drop_left]
      rw [hdrop]
      congr 1
      exact Handler.scanReplaceAux_fuel cache (ns ++ b).length b.length b
        (by simp) (le_refl _)

/-- C10 witness: a text without the cached name is untouched; a text starting
with the cached name `"@Ab"` has it replaced by its token. -/
theorem encode_user_mentions_amended_witness :
    Handler.encode_user_mentions [("<@1>".data, "@Ab".data)] ("hi".data) = "hi".data ∧
    Handler.encode_user_mentions [("<@1>".data, "@Ab".data)] ("@Ab ok".data) =
      "<@1>".data ++ Handler.encode_user_mentions [("<@1>".data, "@Ab".data)] (" ok".data) :=
  ⟨(encode_user_mentions_amended [("<@1>".data, "@Ab".data)] ("hi".data)
      "<@1>".data "@Ab".data (" ok".data)).1 (by decide),
    (encode_user_mentions_amended [("<@1>".data, "@Ab".data)] ("hi".data)
      "<@1>".data "@Ab".data (" ok".data)).2 (by decide) (by decide)⟩

namespace Handler

/-- The cache entry `decode_user_mentions_from_str` inserts for a resolved
value `v`: the canonical token paired with `"@" ++ displayName`. -/
def entryOf (resolver : Nat → Option String) (v : Nat) : List Char × List Char :=
  (canonKey v, '@' :: ((resolver v).getD "").data)

theorem phase1_ok_spec (resolver : Nat → Option String)
    (cache₀ : List (List Char × List Char))
    (hinj : ∀ v w a b, v ≠ w → resolver v = some a → resolver w = some b → a ≠ b)
    (hfresh : ∀ v a, resolver v = some a → ∀ p ∈ cache₀, p.2 ≠ '@' :: a.data) :
    ∀ (vs : List (List Char)) (inv : List Nat)
      (out : List (List Char × List Char) × List Nat),
      phase1 resolver (cache₀ ++ inv.map (entryOf resolver)) inv vs = .ok out →
      inv.Nodup → (∀ w ∈ inv, (resolver w).isSome) →
      out.2.Nodup ∧
      (∀ v ∈ out.2, v ∈ inv ∨ cache₀.any (fun p => p.1 == canonKey v) = false) ∧
      out.1 = cache₀ ++ out.2.map (entryOf resolver) ∧
      (∀ w ∈ out.2, (resolver w).isSome) := by
  intro vs
  induction vs with
  | nil =>
    intro inv out h hnd hsome
    unfold phase1 at h
    cases h
    exact ⟨hnd, fun v hv => Or.inl hv, rfl, hsome⟩
  | cons ds rest ih =>
    intro inv out h hnd hsome
    unfold phase1 at h
    rcases hparse : parseU64 ds with _ | v
    · rw [hparse] at h
      exact Except.noConfusion h
    · rw [hparse] at h
      replace h : (if (cache₀ ++ inv.map (entryOf resolver)).any
            (fun p => p.1 == canonKey v) then
          phase1 resolver (cache₀ ++ inv.map (entryOf resolver)) inv rest
        else
          match resolver v with
          | some nick =>
            phase1 resolver
              (bimapInsert (cache₀ ++ inv.map (entryOf resolver)) (canonKey v)
                ('@' :: nick.data)) (inv ++ [v]) rest
          | none => .error ()) = .ok out := h
      split_ifs at h with hcached
      · -- already cached: state unchanged
        exact ih inv out h hnd hsome
      · -- uncached: inspect the resolver
        rcases hsplit : resolver v with _ | nick
        · rw [hsplit] at h
          exact Except.noConfusion h
        · rw [hsplit] at h
          have hres : resolver v = some nick := hsplit
          replace h : phase1 resolver
              (bimapInsert (cache₀ ++ inv.map (entryOf resolver)) (canonKey v)
                ('@' :: nick.data)) (inv ++ [v]) rest = .ok out := h
          have hcachedF :
              ((cache₀ ++ inv.map (entryOf resolver)).any
                (fun p => p.1 == canonKey v)) = false :=
            Bool.eq_false_iff.mpr hcached
          have hallmem := List.any_eq_false.mp hcachedF
          have hvnotin : v ∉ inv := by
            intro hvin
            have hmem : entryOf resolver v ∈ cache₀ ++ inv.map (entryOf resolver) :=
              List.mem_append.mpr (Or.inr (List.mem_map.mpr ⟨v, hvin, rfl⟩))
            have := hallmem _ hmem
            simp [entryOf] at this
          have hins :
              bimapInsert (cache₀ ++ inv.map (entryOf resolver)) (canonKey v)
                  ('@' :: nick.data) =
                cache₀ ++ (inv ++ [v]).map (entryOf resolver) := by
            unfold bimapInsert
            have hall : ∀ p ∈ cache₀ ++ inv.map (entryOf resolver),
                (!(p.1 == canonKey v) && !(p.2 == '@' :: nick.data)) = true := by
              intro p hp
              have h1 : ¬((p.1 == canonKey v) = true) := hallmem p hp
              have h2 : p.2 ≠ '@' :: nick.data := by
                rcases List.mem_append.mp hp with hp0 | hpm
                · exact hfresh v nick hres p hp0
                · rcases List.mem_map.mp hpm with ⟨w, hw, hpe⟩
                  obtain ⟨a, ha⟩ := Option.isSome_iff_exists.mp (hsome w hw)
                  have hwv : w ≠ v := by
                    rintro rfl
                    exact h1 (by rw [← hpe]; simp [entryOf])
                  have hne : nick ≠ a := hinj v w nick a (fun hc => hwv hc.symm) hres ha
                  rw [← hpe]
                  simp only [entryOf, ha, Option.getD_some]
                  intro hc
                  have htail : a.data = nick.data := by
                    have := congrArg List.tail hc
                    simpa using this
                  exact hne (String.ext htail).symm
              simp [h1, h2]
            rw [List.filter_eq_self.mpr hall]
            simp only [List.map_append, List.map_cons, List.map_nil, List.append_assoc]
            congr 2
            simp [entryOf, hres]
          rw [hins] at h
          have hnd' : (inv ++ [v]).Nodup := by
            simp only [List.nodup_append, List.nodup_cons, List.nodup_nil]
            exact ⟨hnd, by simp, by simpa using hvnotin⟩
          have hsome' : ∀ w ∈ inv ++ [v], (resolver w).isSome := by
            intro w hw
            rcases List.mem_append.mp hw with hw | hw
            · exact hsome w hw
            · simp only [List.mem_cons, List.not_mem_nil, or_false] at hw
              subst hw
              simp [hres]
          obtain ⟨c1, c2, c3, c4⟩ := ih (inv ++ [v]) out h hnd' hsome'
          refine ⟨c1, ?_, c3, c4⟩
          intro u hu
          rcases c2 u hu with hu' | hu'
          · rcases List.mem_append.mp hu' with hu'' | hu''
            · exact Or.inl hu''
            · simp only [List.mem_cons, List.not_mem_nil, or_false] at hu''
              subst hu''
              refine Or.inr (List.any_eq_false.mpr ?_)
              intro p hp
              exact hallmem p (List.mem_append.mpr (Or.inl hp))
          · exact Or.inr hu'
theorem phase1_all_cached (resolver : Nat → Option String)
    (cache : List (List Char × List Char)) :
    ∀ (vs : List (List Char)) (inv : List Nat),
      (∀ ds ∈ vs, ∃ v, parseU64 ds = some v ∧
        cache.any (fun p => p.1 == canonKey v) = true) →
      phase1 resolver cache inv vs = .ok (cache, inv) := by
  intro vs
  induction vs with
  | nil => intro inv _; rfl
  | cons ds rest ih =>
    intro inv h
    obtain ⟨v, hv, hc⟩ := h ds (List.mem_cons_self ds rest)
    unfold phase1
    rw [hv]
    show (if cache.any (fun p => p.1 == canonKey v) then
        phase1 resolver cache inv rest
      else
        match resolver v with
        | some nick =>
          phase1 resolver (bimapInsert cache (canonKey v) ('@' :: nick.data))
            (inv ++ [v]) rest
        | none => .error ()) = .ok (cache, inv)
    rw [if_pos hc]
    exact ih inv (fun ds' hds' => h ds' (List.mem_cons_of_mem ds hds'))

theorem phase1_parse_fail (resolver : Nat → Option String) :
    ∀ (vs : List (List Char)) (cache : List (List Char × List Char))
      (inv : List Nat),
      (∃ ds ∈ vs, parseU64 ds = none) →
      phase1 resolver cache inv vs = .error () := by
  intro vs
  induction vs with
  | nil =>
    intro cache inv h
    rcases h with ⟨ds, hds, _⟩
    cases hds
  | cons ds rest ih =>
    intro cache inv h
    unfold phase1
    rcases hparse : parseU64 ds with _ | v
    · rfl
    · rcases h with ⟨ds', hds', hbad⟩
      have hmem : ds' ∈ rest := by
        rcases List.mem_cons.mp hds' with hd | hd
        · exfalso
          rw [hd, hparse] at hbad
          exact Option.noConfusion hbad
        · exact hd
      show (if cache.any (fun p => p.1 == canonKey v) then
          phase1 resolver cache inv rest
        else
          match resolver v with
          | some nick =>
            phase1 resolver (bimapInsert cache (canonKey v) ('@' :: nick.data))
              (inv ++ [v]) rest
          | none => .error ()) = .error ()
      by_cases hc : cache.any (fun p => p.1 == canonKey v) = true
      · rw [if_pos hc]
        exact ih cache inv ⟨ds', hmem, hbad⟩
      · rw [if_neg hc]
        rcases hres : resolver v with _ | nick
        · rfl
        · show phase1 resolver (bimapInsert cache (canonKey v) ('@' :: nick.data))
              (inv ++ [v]) rest = .error ()
          exact ih _ _ ⟨ds', hmem, hbad⟩

theorem phase1_fails (resolver : Nat → Option String)
    (hnone : ∀ v, resolver v = none) :
    ∀ (vs : List (List Char)) (cache : List (List Char × List Char))
      (inv : List Nat),
      (∃ ds ∈ vs, ∀ v, parseU64 ds = some v →
        cache.any (fun p => p.1 == canonKey v) = false) →
      phase1 resolver cache inv vs = .error () := by
  intro vs
  induction vs with
  | nil =>
    intro cache inv h
    rcases h with ⟨ds, hds, _⟩
    cases hds
  | cons ds rest ih =>
    intro cache inv h
    unfold phase1
    rcases hparse : parseU64 ds with _ | v
    · rfl
    · show (if cache.any (fun p => p.1 == canonKey v) then
          phase1 resolver cache inv rest
        else
          match resolver v with
          | some nick =>
            phase1 resolver (bimapInsert cache (canonKey v) ('@' :: nick.data))
              (inv ++ [v]) rest
          | none => .error ()) = .error ()
      by_cases hc : cache.any (fun p => p.1 == canonKey v) = true
      · rw [if_pos hc]
        rcases h with ⟨ds', hds', hcond⟩
        refine ih cache inv ⟨ds', ?_, hcond⟩
        rcases List.mem_cons.mp hds' with hd | hd
        · exfalso
          rw [hd] at hcond
          rw [hcond v hparse] at hc
          exact Bool.noConfusion hc
        · exact hd
      · rw [if_neg hc, hnone v]

end Handler

/-- C9 counterexample: three concrete runs refuting the claim as stated.
First, a token whose resolution fails is not left as the original token
text: with an empty cache and a resolver that always fails, decoding
`"<@42> hi"` errs (the `?` on the gateway lookup aborts the whole call).
Second, the resolver is not invoked at most once per distinct token: with a
resolver that names every user `"X"`, decoding `"<@1> <@2> <@1>"` invokes the
resolver on 1, 2 and then 1 again — inserting `(<@2>, @X)` into the `BiMap`
evicts `(<@1>, @X)` (display-name collision), so the third capture is
uncached and re-resolved, and the successfully resolved `<@2>` even ends up
back as literal token text in the output. Third, `\d` is Unicode-aware while
`u64` parsing is ASCII-only, so `"<@٣>"` (Arabic-Indic three) matches and
then aborts the decode with a parse error. -/
theorem decode_user_mentions_counterexample :
    Handler.decode_user_mentions_from_str [] (fun _ => none) ("<@42> hi".data) =
      .error () ∧
    Handler.decode_user_mentions_from_str [] (fun _ => some "X")
        ("<@1> <@2> <@1>".data) =
      .ok ("@X <@2> @X".data, [("<@1>".data, "@X".data)], [1, 2, 1]) ∧
    Handler.decode_user_mentions_from_str [] (fun _ => some "X") ("<@٣>".data) =
      .error () := by
  exact ⟨rfl, rfl, rfl⟩

/-- C9 amended: `decode_user_mentions_from_str` (`src/main.rs`) invokes the
resolver at most once per distinct reference token per call, and only on
tokens not already cached — provided resolved display names collide neither
with each other nor with cached ones, since the bidirectional cache evicts a
pair on display-name collision, after which the evicted token is resolved
again (shown concretely by the counterexample); when every captured token
parses and is already cached the call succeeds with no resolver invocation,
rewriting cached tokens from the cache; a captured token that fails `u64`
parsing (a non-ASCII Unicode digit matched by `\d`, or an overflowing value)
aborts the whole decode with an error; and when the resolver fails for an
uncached token the whole decode likewise fails with an error instead of
leaving the token text in place. -/
theorem decode_user_mentions_amended
    (cache : List (List Char × List Char)) (resolver : Nat → Option String)
    (text : List Char)
    (hinj : ∀ v w a b, v ≠ w → resolver v = some a → resolver w = some b → a ≠ b)
    (hfresh : ∀ v a, resolver v = some a → ∀ p ∈ cache, p.2 ≠ '@' :: a.data) :
    (∀ out, Handler.decode_user_mentions_from_str cache resolver text = .ok out →
      out.2.2.Nodup ∧
      ∀ v ∈ out.2.2, cache.any (fun p => p.1 == Handler.canonKey v) = false) ∧
    ((∀ ds ∈ Handler.capturedDigits text, ∃ v, Handler.parseU64 ds = some v ∧
        cache.any (fun p => p.1 == Handler.canonKey v) = true) →
      Handler.decode_user_mentions_from_str cache resolver text =
        .ok (Handler.phase2 cache text, cache, [])) ∧
    ((∃ ds ∈ Handler.capturedDigits text, Handler.parseU64 ds = none) →
      Handler.decode_user_mentions_from_str cache resolver text = .error ()) ∧
    ((∀ v, resolver v = none) →
      (∃ ds ∈ Handler.capturedDigits text, ∀ v, Handler.parseU64 ds = some v →
        cache.any (fun p => p.1 == Handler.canonKey v) = false) →
      Handler.decode_user_mentions_from_str cache resolver text = .error ()) := by
  refine ⟨?_, ?_, ?_, ?_⟩
  · intro out hout
    unfold Handler.decode_user_mentions_from_str at hout
    cases hp : Handler.phase1 resolver cache [] (Handler.capturedDigits text) with
    | error e => rw [hp] at hout; cases hout
    | ok res =>
      rw [hp] at hout
      cases hout
      have hspec := Handler.phase1_ok_spec resolver cache hinj hfresh
        (Handler.capturedDigits text) [] res (by simpa using hp) (by simp) (by simp)
      refine ⟨hspec.1, ?_⟩
      intro v hv
      rcases hspec.2.1 v hv with hfalse | hfalse
      · cases hfalse
      · exact hfalse
  · intro hall
    unfold Handler.decode_user_mentions_from_str
    rw [Handler.phase1_all_cached resolver cache (Handler.capturedDigits text) [] hall]
  · intro hex
    unfold Handler.decode_user_mentions_from_str
    rw [Handler.phase1_parse_fail resolver (Handler.capturedDigits text) cache [] hex]
  · intro hnone hex
    unfold Handler.decode_user_mentions_from_str
    rw [Handler.phase1_fails resolver hnone (Handler.capturedDigits text) cache [] hex]

/-- C9 witness: with `<@42>` already cached as `@Ada` and a resolver that
always fails, decoding `"<@42> hi"` succeeds with zero resolver invocations
and rewrites the cached token. -/
theorem decode_user_mentions_amended_witness :
    Handler.decode_user_mentions_from_str [("<@42>".data, "@Ada".data)] (fun _ => none)
        ("<@42> hi".data) =
      .ok ("@Ada hi".data, [("<@42>".data, "@Ada".data)], []) := by
  have hall : ∀ ds ∈ Handler.capturedDigits ("<@42> hi".data),
      ∃ v, Handler.parseU64 ds = some v ∧
        ([("<@42>".data, "@Ada".data)]).any
          (fun p => p.1 == Handler.canonKey v) = true := by
    intro ds hds
    have hcap : Handler.capturedDigits ("<@42> hi".data) = ["42".data] := rfl
    rw [hcap] at hds
    simp only [List.mem_cons, List.not_mem_nil, or_false] at hds
    subst hds
    exact ⟨42, rfl, rfl⟩
  have h := (decode_user_mentions_amended [("<@42>".data, "@Ada".data)] (fun _ => none)
    ("<@42> hi".data)
    (by intro v w a b _ hv _; exact Option.noConfusion hv)
    (by intro v a hv; exact Option.noConfusion hv)).2.1 hall
  rw [h]
  rfl
